import Mathlib

/-!
Verification of the RAG-over-PDF-URLs pipeline (notebook `rag.ipynb`).

The pipeline's own code (metadata trimming, the dedup-aware insert helper
`add_documents_to_vector_store`, result joining, prompt construction) is
embedded directly from the notebook source.  The chunking algorithm and the
vector-store primitives live in external libraries (langchain's
`CharacterTextSplitter`, Chroma); those are modelled from the specification's
own operational description, as noted on each definition.

Text is represented as `List Char`; Python strings used as metadata values
become the `Scalar` type below.
-/

namespace RagPDF

/-- A scalar metadata value, as stored in a PDF document's metadata mapping
(strings and integers are the only values the notebook's metadata uses). -/
inductive Scalar where
  | s (v : String)
  | i (v : Int)
deriving DecidableEq

/-- A document: `page_content` plus a metadata mapping, as in
`langchain.schema.Document` (notebook cell 4/6).  The metadata mapping is an
association list; structural equality of two documents compares content and
metadata, matching Python `Document` equality. -/
structure Document where
  content : List Char
  metadata : List (String × Scalar)
deriving DecidableEq

/-! ### Chunker

The notebook's `split_text` (cell 11) delegates the actual splitting to
langchain's `CharacterTextSplitter`, whose code is not part of this
repository.  The splitter is therefore modelled from the spec, section 4.1:
repeatedly emit the largest prefix of the remaining content not exceeding
`chunk_size` whose boundary aligns with the last occurrence of the separator
inside the window; if no separator occurs within the window, cut at exactly
`chunk_size` (hard split); the next chunk starts `chunk_overlap` characters
before the end of the previous one, clamped so that it strictly advances past
the previous chunk's start.  Both notebook call sites use a one-character
separator (" " and the default newline), so the separator is modelled as a
single character. -/

/-- Index of the last occurrence of `sep` in `l`, if any. -/
def lastSepIdx (sep : Char) : List Char → Option Nat
  | [] => none
  | c :: rest =>
    match lastSepIdx sep rest with
    | some j => some (j + 1)
    | none => if c = sep then some 0 else none

/-- Modelled from the spec: the end of the next chunk to emit — just past the
last separator occurrence in the `chunk_size`-wide window, or exactly
`chunk_size` if the window holds no separator (hard split). -/
def cutEnd (sep : Char) (csize : Nat) (s : List Char) : Nat :=
  match lastSepIdx sep (s.take csize) with
  | some j => j + 1
  | none => csize

/-- Modelled from the spec: the start of the chunk after the current one —
`chunk_overlap` characters before the current chunk's end, clamped so that the
split strictly advances past the current chunk's start. -/
def nextStart (sep : Char) (csize coverlap : Nat) (s : List Char) : Nat :=
  max (cutEnd sep csize s - coverlap) 1

/-- Modelled from the spec: the splitting loop, totalised with explicit fuel
(the wrapper supplies `length + 1`, which the progress property below shows is
always enough). -/
def splitChunksF (sep : Char) (csize coverlap : Nat) : Nat → List Char → List (List Char)
  | 0, _ => []
  | fuel + 1, s =>
    if s.length ≤ csize then [s]
    else
      s.take (cutEnd sep csize s) ::
        splitChunksF sep csize coverlap fuel (s.drop (nextStart sep csize coverlap s))

/-- Modelled from the spec: split one document's content into chunk contents. -/
def splitChunks (sep : Char) (csize coverlap : Nat) (s : List Char) : List (List Char) :=
  splitChunksF sep csize coverlap (s.length + 1) s

/-- Error raised when the chunker's configuration is invalid (spec §4.1/§7). -/
inductive SplitError where
  | invalidConfiguration
deriving DecidableEq

/-- The notebook's `split_text` (cell 11): splits each document's content into
chunks, every chunk carrying its parent document's metadata.  Parameter order
and names follow the notebook.  The validation of `chunk_size`/`chunk_overlap`
and the splitting itself happen inside the external splitter and are modelled
from the spec (§4.1: "Fails with `InvalidConfiguration` when `chunk_size <= 0`
or `chunk_overlap >= chunk_size`"). -/
def split_text (documents : List Document) (chunk_overlap chunk_size : Int)
    (separator : Char) : Except SplitError (List Document) :=
  if chunk_size ≤ 0 ∨ chunk_overlap ≥ chunk_size then
    .error .invalidConfiguration
  else
    .ok (documents.flatMap fun d =>
      (splitChunks separator chunk_size.toNat chunk_overlap.toNat d.content).map
        fun c => ⟨c, d.metadata⟩)

/-! ### Metadata trimming (notebook cell 8, `trimmed_pdf_data`) -/

/-- The notebook's metadata-trimming dict comprehension (cell 8):
`{key: m.get(key) for key in important_metadata if key in m}` — keep, in
allow-list order, exactly the allow-listed keys present in the metadata, each
with its value copied verbatim. -/
def trimMetadata (important_metadata : List String)
    (md : List (String × Scalar)) : List (String × Scalar) :=
  important_metadata.filterMap fun k => (md.lookup k).map fun v => (k, v)

/-- Trim one document's metadata, keeping its content (cell 8's
`Document(page_content=data.page_content, metadata=trimmed_metadata)`). -/
def trimDocument (important_metadata : List String) (d : Document) : Document :=
  ⟨d.content, trimMetadata important_metadata d.metadata⟩

/-- The notebook's `trimmed_pdf_data` loop (cell 8). -/
def trimmed_pdf_data (important_metadata : List String)
    (pdf_data : List Document) : List Document :=
  pdf_data.map (trimDocument important_metadata)

/-- Invariant for the reconstruction proof: the drop amount `o` handed to the
current suffix `s` of the source text is small, in range, and its dropped
region either ends at a separator or contains no separator at all. -/
def dropInv (sep : Char) (csize : Nat) (s : List Char) (o : Nat) : Prop :=
  o < csize ∧ o ≤ s.length ∧ (o = 0 ∨ s[o - 1]? = some sep ∨ sep ∉ s.take o)
/-- Concatenate a list of chunks, dropping the given overlap amount from the
front of each chunk. -/
def catDrop : List (List Char) → List Nat → List Char
  | c :: cs, o :: os => c.drop o ++ catDrop cs os
  | _, _ => []
/-- Concatenate all chunks' content, removing the given overlap amount from
the front of every chunk but the first. -/
def removeOverlaps (chunks : List (List Char)) (os : List Nat) : List Char :=
  match chunks with
  | [] => []
  | c :: rest => c ++ catDrop rest os
/-- The list `a` is a trailing segment of the list `b`. -/
def sharedTail (a b : List Char) : Prop :=
  ∃ t, t ++ a = b
/-- Every adjacent pair of chunks shares the claimed overlap: each drop amount
is at most `chunk_overlap` and the dropped leading segment of a chunk is a
trailing segment of its predecessor. -/
def sharedOverlaps (coverlap : Nat) : List (List Char) → List Nat → Prop
  | c1 :: c2 :: rest, o :: os =>
    o ≤ coverlap ∧ sharedTail (c2.take o) c1 ∧ sharedOverlaps coverlap (c2 :: rest) os
  | _, _ => True
/-- Chunks produced by the C2 witness configuration. -/
def splitTextWitnessChunks : List Document :=
  [⟨"ab ".toList, []⟩, ⟨"b ".toList, []⟩, ⟨" cd ".toList, []⟩, ⟨"d ef".toList, []⟩]

/-! ### Vector store

The notebook's own ingestion logic (`add_documents_to_vector_store`, cell 14)
is embedded from the source.  The Chroma primitives it calls — fetching
existing records, appending embedded records with fresh identifiers, and
similarity search — are external and are modelled from the spec (§4.2).
Embedding is an opaque external gateway, passed in as a function parameter. -/

/-- An embedded record owned by the vector store: an opaque unique identifier,
the stored (content, metadata) pair, and the embedding vector (spec §3). -/
structure EmbeddedRecord where
  id : Nat
  doc : Document
  vector : List Int
deriving DecidableEq

/-- The vector store's state: stored records in insertion order, plus the next
fresh identifier. -/
structure VectorStore where
  records : List EmbeddedRecord
  nextId : Nat
deriving DecidableEq

/-- Modelled from the spec: the records appended by one `add_documents` call —
each document embedded via the gateway and paired with a fresh identifier. -/
def buildRecords (embed : List Char → List Int) (i : Nat) :
    List Document → List EmbeddedRecord
  | [] => []
  | d :: ds => ⟨i, d, embed d.content⟩ :: buildRecords embed (i + 1) ds

/-- Modelled from the spec: Chroma's `add_documents` — append every document,
embedded, each with a fresh unique identifier. -/
def addAll (embed : List Char → List Int) (st : VectorStore)
    (docs : List Document) : VectorStore :=
  ⟨st.records ++ buildRecords embed st.nextId docs, st.nextId + docs.length⟩

/-- Modelled from the spec: fetch up to `limit` existing records from the
store (the notebook does this with `vector_store.similarity_search("", k=limit)`;
a limit at least the store's size fetches every stored record). -/
def fetchStored (st : VectorStore) (limit : Nat) : List EmbeddedRecord :=
  st.records.take limit

/-- Strip a fetched record's identifier, keeping its (content, metadata) pair
(the notebook's `del doc.metadata['id']` over a deep copy). -/
def stripId (r : EmbeddedRecord) : Document :=
  r.doc

/-- The notebook's `add_documents_to_vector_store` (cell 14), embedded from
the source: on an empty batch do nothing; otherwise, when duplicates are not
allowed, fetch up to `limit` stored records, strip their identifiers, and keep
only the candidates not structurally equal to any member of that set; append
whatever survives. -/
def add_documents_to_vector_store (embed : List Char → List Int)
    (vector_store : VectorStore) (ingest_data : List Document)
    (allow_duplicates : Bool) (limit : Nat) : VectorStore :=
  if ingest_data = [] then vector_store
  else
    let stored_documents_without_id : List Document :=
      if allow_duplicates then []
      else (fetchStored vector_store limit).map stripId
    let documents_to_add :=
      ingest_data.filter fun d => decide (d ∉ stored_documents_without_id)
    if documents_to_add = [] then vector_store
    else addAll embed vector_store documents_to_add

/-- Modelled from the spec: squared L2 distance between two vectors (the
store's fixed similarity metric). -/
def l2sq (u v : List Int) : Int :=
  (List.zipWith (fun a b => (a - b) * (a - b)) u v).sum

/-- Pair every stored record with its insertion index (starting at `i`) and
its distance to the query vector. -/
def scoreFrom (qv : List Int) (i : Nat) :
    List EmbeddedRecord → List (Nat × EmbeddedRecord × Int)
  | [] => []
  | r :: rs => (i, r, l2sq qv r.vector) :: scoreFrom qv (i + 1) rs

/-- Stable insertion by distance: an element is placed after every
already-placed element whose distance is no larger, so earlier-inserted
records win ties. -/
def insertRanked (x : Nat × EmbeddedRecord × Int) :
    List (Nat × EmbeddedRecord × Int) → List (Nat × EmbeddedRecord × Int)
  | [] => [x]
  | y :: ys => if x.2.2 ≤ y.2.2 then x :: y :: ys else y :: insertRanked x ys

/-- Stable insertion sort of scored records by non-decreasing distance. -/
def rankAll : List (Nat × EmbeddedRecord × Int) → List (Nat × EmbeddedRecord × Int)
  | [] => []
  | x :: xs => insertRanked x (rankAll xs)

/-- Modelled from the spec: `search(q, k)` with insertion indices exposed —
embed the query once, score every stored record, order by non-decreasing
distance with ties broken by earliest insertion, return the best `k`. -/
def searchRanked (embed : List Char → List Int) (st : VectorStore)
    (q : List Char) (k : Nat) : List (Nat × EmbeddedRecord × Int) :=
  (rankAll (scoreFrom (embed q) 0 st.records)).take k

/-- Modelled from the spec: `search(q, k)` as the caller sees it — records
with their distance scores. -/
def search (embed : List Char → List Int) (st : VectorStore)
    (q : List Char) (k : Nat) : List (EmbeddedRecord × Int) :=
  (searchRanked embed st q k).map fun t => (t.2.1, t.2.2)

/-- Strict ranking order on scored records: smaller distance first, ties by
earlier insertion index. -/
def rankedBefore (a b : Nat × EmbeddedRecord × Int) : Prop :=
  a.2.2 < b.2.2 ∨ (a.2.2 = b.2.2 ∧ a.1 < b.1)

/-! ### Retriever and Answer Synthesizer (notebook cells 18, 20, 22) -/

/-- Python's `"\n".join` over a list of strings. -/
def joinNewline : List (List Char) → List Char
  | [] => []
  | [t] => t
  | t :: ts => t ++ '\n' :: joinNewline ts

/-- The notebook's `search_result_text` (cell 18): the contents of the search
results, joined with a newline separator, in result order. -/
def search_result_text (search_results : List (EmbeddedRecord × Int)) : List Char :=
  joinNewline (search_results.map fun r => r.1.doc.content)

/-- The Retriever: search then assemble the context string (cells 16 and 18). -/
def retrieve (embed : List Char → List Int) (st : VectorStore)
    (query : List Char) (k : Nat) : List Char :=
  search_result_text (search embed st query k)

/-- The notebook's `instructions` f-string (cell 20):
`f"Context: {search_result_text} \nQuestion: {query}"`. -/
def instructions (context query : List Char) : List Char :=
  "Context: ".toList ++ context ++ " \nQuestion: ".toList ++ query

/-- The Answer Synthesizer (cell 22): one call to the external generative
model with the constructed prompt, its text response returned verbatim. -/
def answer (complete : List Char → List Char) (context query : List Char) : List Char :=
  complete (instructions context query)

/-- A concrete embedding function used by witnesses: the content length as a
one-dimensional vector. -/
def embedLen (s : List Char) : List Int :=
  [(s.length : Int)]

/-! ### Basic chunker lemmas -/

theorem lastSepIdx_none_iff (sep : Char) (l : List Char) :
    lastSepIdx sep l = none ↔ sep ∉ l := by
  induction l with
  | nil => simp [lastSepIdx]
  | cons c rest ih =>
    simp only [lastSepIdx, List.mem_cons]
    cases h : lastSepIdx sep rest with
    | some j =>
      have hmem : sep ∈ rest := by
        by_contra hs
        rw [← ih] at hs
        simp [h] at hs
      simp [hmem]
    | none =>
      have hnm : sep ∉ rest := ih.mp h
      by_cases hc : c = sep
      · subst hc
        simp [hnm]
      · simp only [if_neg hc]
        simp only [eq_self_iff_true, true_iff]
        intro hor
        rcases hor with hx | hx
        · exact hc hx.symm
        · exact hnm hx

theorem lastSepIdx_lt (sep : Char) (l : List Char) (j : Nat)
    (h : lastSepIdx sep l = some j) : j < l.length := by
  induction l generalizing j with
  | nil => simp [lastSepIdx] at h
  | cons c rest ih =>
    simp only [lastSepIdx] at h
    cases hr : lastSepIdx sep rest with
    | some j' =>
      simp only [hr] at h
      cases h
      have := ih j' hr
      simp; omega
    | none =>
      simp only [hr] at h
      by_cases hc : c = sep <;> simp [hc] at h
      cases h
      simp

theorem le_lastSepIdx (sep : Char) (l : List Char) (i : Nat)
    (h : l[i]? = some sep) : ∃ j, lastSepIdx sep l = some j ∧ i ≤ j := by
  induction l generalizing i with
  | nil => simp at h
  | cons c rest ih =>
    cases i with
    | zero =>
      simp at h
      cases hr : lastSepIdx sep rest with
      | some j' => exact ⟨j' + 1, by simp [lastSepIdx, hr], by omega⟩
      | none => exact ⟨0, by simp [lastSepIdx, hr, h], le_refl 0⟩
    | succ i' =>
      simp at h
      obtain ⟨j', hj', hle⟩ := ih i' h
      exact ⟨j' + 1, by simp [lastSepIdx, hj'], by omega⟩

theorem lastSepIdx_getElem (sep : Char) (l : List Char) (j : Nat)
    (h : lastSepIdx sep l = some j) : l[j]? = some sep := by
  induction l generalizing j with
  | nil => simp [lastSepIdx] at h
  | cons c rest ih =>
    simp only [lastSepIdx] at h
    cases hr : lastSepIdx sep rest with
    | some j' =>
      simp only [hr] at h
      cases h
      simpa using ih j' hr
    | none =>
      simp only [hr] at h
      by_cases hc : c = sep <;> simp [hc] at h
      cases h
      simp [hc]

theorem cutEnd_pos (sep : Char) (csize : Nat) (s : List Char) (hcs : 0 < csize) :
    0 < cutEnd sep csize s := by
  unfold cutEnd
  cases lastSepIdx sep (s.take csize) with
  | some j => simp
  | none => simpa using hcs

theorem cutEnd_le (sep : Char) (csize : Nat) (s : List Char) :
    cutEnd sep csize s ≤ csize := by
  cases h : lastSepIdx sep (s.take csize) with
  | some j =>
    have := lastSepIdx_lt sep _ j h
    simp only [List.length_take] at this
    simp only [cutEnd, h]
    omega
  | none => simp [cutEnd, h]

theorem dropInv_le_cutEnd (sep : Char) (csize : Nat) (s : List Char) (o : Nat)
    (h : dropInv sep csize s o) : o ≤ cutEnd sep csize s := by
  obtain ⟨hlt, hle, hdis⟩ := h
  rcases hdis with h0 | hsep | hnot
  · omega
  · rcases Nat.eq_zero_or_pos o with h0 | hpos
    · omega
    · have htake : (s.take csize)[o - 1]? = some sep := by
        rw [List.getElem?_take]
        simp only [if_pos (by omega : o - 1 < csize)]
        exact hsep
      obtain ⟨j, hj, hje⟩ := le_lastSepIdx sep (s.take csize) (o - 1) htake
      simp only [cutEnd, hj]
      omega
  · cases hc : lastSepIdx sep (s.take csize) with
    | some j =>
      have hce : cutEnd sep csize s = j + 1 := by simp [cutEnd, hc]
      rw [hce]
      by_contra hcon
      have hjo : j < o := by omega
      have hget := lastSepIdx_getElem sep _ j hc
      rw [List.getElem?_take] at hget
      have hjc : j < csize := by omega
      simp only [if_pos hjc] at hget
      have : (s.take o)[j]? = some sep := by
        rw [List.getElem?_take]
        simp [if_pos hjo, hget]
      obtain ⟨hlt', hv⟩ := List.getElem?_eq_some_iff.mp this
      exact hnot (hv ▸ List.getElem_mem hlt')
    | none =>
      have hce : cutEnd sep csize s = csize := by simp [cutEnd, hc]
      omega

theorem splitChunksF_ne_nil (sep : Char) (csize coverlap fuel : Nat) (s : List Char)
    (h : s.length < fuel) : splitChunksF sep csize coverlap fuel s ≠ [] := by
  cases fuel with
  | zero => omega
  | succ f =>
    by_cases hle : s.length ≤ csize <;> simp [splitChunksF, hle]

theorem splitChunksF_chunk_le (sep : Char) (csize coverlap : Nat) :
    ∀ fuel s, s.length < fuel →
      ∀ c ∈ splitChunksF sep csize coverlap fuel s, c.length ≤ csize := by
  intro fuel
  induction fuel with
  | zero => intro s h; omega
  | succ f ih =>
    intro s hlen c hc
    by_cases hle : s.length ≤ csize
    · simp [splitChunksF, hle] at hc
      subst hc
      exact hle
    · simp only [splitChunksF, if_neg hle, List.mem_cons] at hc
      rcases hc with hc | hc
      · subst hc
        have := cutEnd_le sep csize s
        simp [List.length_take]
        omega
      · have hlt : (s.drop (nextStart sep csize coverlap s)).length < f := by
          have h1 : 1 ≤ nextStart sep csize coverlap s := by
            unfold nextStart; omega
          simp [List.length_drop]
          omega
        exact ih _ hlt c hc

theorem splitChunksF_head_take (sep : Char) (csize coverlap fuel : Nat) (s : List Char)
    (h : s.length < fuel) :
    ∃ m, ((splitChunksF sep csize coverlap fuel s).headD []) = s.take m := by
  cases fuel with
  | zero => omega
  | succ f =>
    by_cases hle : s.length ≤ csize
    · exact ⟨s.length, by simp [splitChunksF, hle, List.take_length]⟩
    · exact ⟨cutEnd sep csize s, by simp [splitChunksF, hle]⟩

theorem removeOverlaps_eq_catDrop (chunks : List (List Char)) (os : List Nat) :
    removeOverlaps chunks os = catDrop chunks (0 :: os) := by
  cases chunks with
  | nil => simp [removeOverlaps, catDrop]
  | cons c rest => simp [removeOverlaps, catDrop]

theorem take_drop_append (s : List Char) (o e : Nat) (h : o ≤ e) :
    (s.take e).drop o ++ s.drop e = s.drop o := by
  rw [List.drop_take]
  have h2 : e = o + (e - o) := by omega
  calc List.take (e - o) (List.drop o s) ++ List.drop e s
      = List.take (e - o) (List.drop o s) ++ List.drop (o + (e - o)) s := by rw [← h2]
    _ = List.drop o s := List.drop_take_append_drop s o (e - o)

theorem splitChunksF_recompose (sep : Char) (csize coverlap : Nat)
    (hcs : 0 < csize) :
    ∀ fuel s o, s.length < fuel → dropInv sep csize s o →
      ∃ os : List Nat,
        os.length + 1 = (splitChunksF sep csize coverlap fuel s).length ∧
        (∀ x ∈ os, x ≤ coverlap) ∧
        o ≤ ((splitChunksF sep csize coverlap fuel s).headD []).length ∧
        sharedOverlaps coverlap (splitChunksF sep csize coverlap fuel s) os ∧
        catDrop (splitChunksF sep csize coverlap fuel s) (o :: os) = s.drop o := by
  intro fuel
  induction fuel with
  | zero =>
    intro s o h _
    omega
  | succ f ih =>
    intro s o hlen hinv
    by_cases hle : s.length ≤ csize
    · refine ⟨[], ?_, ?_, ?_, ?_, ?_⟩
      · simp [splitChunksF, hle]
      · simp
      · simpa [splitChunksF, hle] using hinv.2.1
      · simp only [splitChunksF, if_pos hle]
        exact trivial
      · simp [splitChunksF, hle, catDrop]
    · obtain ⟨e, he⟩ : ∃ x, cutEnd sep csize s = x := ⟨_, rfl⟩
      obtain ⟨nxt, hn⟩ : ∃ x, nextStart sep csize coverlap s = x := ⟨_, rfl⟩
      have hnmax : nxt = max (e - coverlap) 1 := by rw [← hn, nextStart, he]
      have he1 : 1 ≤ e := he ▸ cutEnd_pos sep csize s hcs
      have hecs : e ≤ csize := he ▸ cutEnd_le sep csize s
      have hslen : csize < s.length := by omega
      have hnxt1 : 1 ≤ nxt := by omega
      have hnxtlow : e - coverlap ≤ nxt := by omega
      have hnxte : nxt ≤ e := by omega
      have hs'len : (s.drop nxt).length < f := by
        simp only [List.length_drop]
        omega
      have ho_e : o ≤ e := he ▸ dropInv_le_cutEnd sep csize s o hinv
      have hinv' : dropInv sep csize (s.drop nxt) (e - nxt) := by
        refine ⟨by omega, ?_, ?_⟩
        · simp only [List.length_drop]
          omega
        · rcases Nat.eq_zero_or_pos (e - nxt) with h0 | hpos
          · exact Or.inl h0
          · cases hc : lastSepIdx sep (s.take csize) with
            | some j =>
              refine Or.inr (Or.inl ?_)
              have hej : e = j + 1 := by rw [← he]; simp [cutEnd, hc]
              have hjlt := lastSepIdx_lt sep _ j hc
              rw [List.length_take, lt_min_iff] at hjlt
              rw [List.getElem?_drop]
              have harg : nxt + (e - nxt - 1) = j := by omega
              rw [harg]
              have hget := lastSepIdx_getElem sep _ j hc
              rw [List.getElem?_take] at hget
              simpa [if_pos hjlt.1] using hget
            | none =>
              refine Or.inr (Or.inr ?_)
              have hee : e = csize := by rw [← he]; simp [cutEnd, hc]
              intro hmem
              rw [List.take_drop] at hmem
              have harg : nxt + (e - nxt) = e := by omega
              rw [harg] at hmem
              have hmem2 : sep ∈ s.take e := List.drop_subset _ _ hmem
              rw [hee] at hmem2
              rw [lastSepIdx_none_iff] at hc
              exact hc hmem2
      obtain ⟨os', h1, h2, h3, h4, h5⟩ := ih (s.drop nxt) (e - nxt) hs'len hinv'
      simp only [splitChunksF, if_neg hle, he, hn]
      refine ⟨(e - nxt) :: os', ?_, ?_, ?_, ?_, ?_⟩
      · simp only [List.length_cons]
        omega
      · intro x hx
        rcases List.mem_cons.mp hx with h0 | h0
        · omega
        · exact h2 x h0
      · simp only [List.headD_cons, List.length_take]
        rw [le_min_iff]
        exact ⟨ho_e, by omega⟩
      · cases hsp : splitChunksF sep csize coverlap f (s.drop nxt) with
        | nil => exact absurd hsp (splitChunksF_ne_nil sep csize coverlap f _ hs'len)
        | cons c2 rest =>
          rw [hsp] at h3 h4
          simp only [List.headD_cons] at h3
          refine ⟨by omega, ?_, h4⟩
          obtain ⟨m, hm⟩ := splitChunksF_head_take sep csize coverlap f (s.drop nxt) hs'len
          rw [hsp] at hm
          simp only [List.headD_cons] at hm
          have hm_len : e - nxt ≤ m := by
            rw [hm, List.length_take, le_min_iff] at h3
            exact h3.1
          have hc2 : c2.take (e - nxt) = (s.drop nxt).take (e - nxt) := by
            rw [hm, List.take_take]
            congr 1
            omega
          rw [hc2, List.take_drop]
          have harg : nxt + (e - nxt) = e := by omega
          rw [harg]
          exact ⟨(s.take e).take nxt, List.take_append_drop nxt (s.take e)⟩
      · simp only [catDrop]
        rw [h5, List.drop_drop]
        have harg : nxt + (e - nxt) = e := by omega
        rw [harg]
        exact take_drop_append s o e ho_e

/-! ### Claim theorems for the Chunker -/

/-- C3: for every call to the Chunker's split operation with
`chunk_size <= 0` or `chunk_overlap >= chunk_size`, the call fails with an
`InvalidConfiguration` validation error at the boundary instead of silently
looping or succeeding. -/
theorem split_text_rejects_invalid_configuration (documents : List Document)
    (chunk_overlap chunk_size : Int) (separator : Char)
    (h : chunk_size ≤ 0 ∨ chunk_overlap ≥ chunk_size) :
    split_text documents chunk_overlap chunk_size separator =
      .error .invalidConfiguration := by
  unfold split_text
  rw [if_pos h]

/-- Witness for C3 at a concrete invalid configuration. -/
theorem split_text_rejects_invalid_configuration_witness :
    ((0 : Int) ≤ 0 ∨ (200 : Int) ≥ (0 : Int)) ∧
      split_text [] 200 0 ' ' = .error .invalidConfiguration :=
  ⟨Or.inl (by decide),
    split_text_rejects_invalid_configuration [] 200 0 ' ' (Or.inl (by decide))⟩

/-- C2: with valid parameters every produced chunk's content has length at
most `chunk_size`; a source span containing no separator and longer than
`chunk_size` is not emitted whole but hard-cut at exactly `chunk_size` (its
first chunk is exactly the first `chunk_size` characters). -/
theorem split_text_chunk_size_bound (documents : List Document)
    (chunk_overlap chunk_size : Int) (separator : Char) (chunks : List Document)
    (hcs : 0 < chunk_size) (hco : chunk_overlap < chunk_size)
    (hok : split_text documents chunk_overlap chunk_size separator = .ok chunks) :
    (∀ c ∈ chunks, (c.content.length : Int) ≤ chunk_size) ∧
    (∀ s : List Char, separator ∉ s → chunk_size < (s.length : Int) →
      (splitChunks separator chunk_size.toNat chunk_overlap.toNat s).headD [] =
        s.take chunk_size.toNat) := by
  have hvalid : ¬(chunk_size ≤ 0 ∨ chunk_overlap ≥ chunk_size) := by omega
  unfold split_text at hok
  rw [if_neg hvalid] at hok
  simp only [Except.ok.injEq] at hok
  subst hok
  constructor
  · intro c hc
    rw [List.mem_flatMap] at hc
    obtain ⟨d, _, hc⟩ := hc
    rw [List.mem_map] at hc
    obtain ⟨cc, hcc, rfl⟩ := hc
    have hlen : cc.length ≤ chunk_size.toNat :=
      splitChunksF_chunk_le separator chunk_size.toNat chunk_overlap.toNat
        (d.content.length + 1) d.content (by omega) cc hcc
    show (cc.length : Int) ≤ chunk_size
    omega
  · intro s hs hlen
    have hlt : chunk_size.toNat < s.length := by omega
    have hnotmem : separator ∉ s.take chunk_size.toNat :=
      fun hmem => hs (List.take_subset _ _ hmem)
    have hnone : lastSepIdx separator (s.take chunk_size.toNat) = none :=
      (lastSepIdx_none_iff _ _).mpr hnotmem
    have hcut : cutEnd separator chunk_size.toNat s = chunk_size.toNat := by
      simp [cutEnd, hnone]
    unfold splitChunks
    cases hsl : s.length with
    | zero => omega
    | succ n =>
      simp only [splitChunksF, if_neg (by omega : ¬ s.length ≤ chunk_size.toNat), hcut]
      simp

/-- Witness for C2 at a concrete document and configuration. -/
theorem split_text_chunk_size_bound_witness :
    (0 : Int) < 4 ∧ (2 : Int) < 4 ∧
      ((∀ c ∈ splitTextWitnessChunks, (c.content.length : Int) ≤ 4) ∧
       (∀ s : List Char, ' ' ∉ s → (4 : Int) < (s.length : Int) →
         (splitChunks ' ' (4 : Int).toNat (2 : Int).toNat s).headD [] =
           s.take (4 : Int).toNat)) :=
  ⟨by decide, by decide,
    split_text_chunk_size_bound [⟨"ab cd ef".toList, []⟩] 2 4 ' '
      splitTextWitnessChunks (by decide) (by decide) rfl⟩

/-- C4: for every document and valid parameters, the produced chunks are the
original content with only overlap duplication: there are per-boundary overlap
amounts, each at most `chunk_overlap`, each a shared trailing/leading segment
of the adjacent chunks, whose removal recovers the original content exactly. -/
theorem split_text_recompose (d : Document) (chunk_overlap chunk_size : Int)
    (separator : Char) (chunks : List Document)
    (hcs : 0 < chunk_size) (hco : chunk_overlap < chunk_size)
    (hok : split_text [d] chunk_overlap chunk_size separator = .ok chunks) :
    ∃ os : List Nat,
      os.length + 1 = chunks.length ∧
      (∀ x ∈ os, x ≤ chunk_overlap.toNat) ∧
      sharedOverlaps chunk_overlap.toNat (chunks.map Document.content) os ∧
      removeOverlaps (chunks.map Document.content) os = d.content := by
  have hvalid : ¬(chunk_size ≤ 0 ∨ chunk_overlap ≥ chunk_size) := by omega
  unfold split_text at hok
  rw [if_neg hvalid] at hok
  simp only [Except.ok.injEq] at hok
  subst hok
  have hmap : (([d].flatMap fun d =>
      (splitChunks separator chunk_size.toNat chunk_overlap.toNat d.content).map
        fun c => (⟨c, d.metadata⟩ : Document)).map Document.content) =
      splitChunks separator chunk_size.toNat chunk_overlap.toNat d.content := by
    have hcomp : (Document.content ∘ fun c => ({ content := c, metadata := d.metadata } : Document)) = id :=
      funext fun c => rfl
    simp [List.map_map, hcomp]
  rw [hmap]
  obtain ⟨os, h1, h2, _, h4, h5⟩ :=
    splitChunksF_recompose separator chunk_size.toNat chunk_overlap.toNat
      (by omega) (d.content.length + 1) d.content 0 (by omega)
      ⟨by omega, Nat.zero_le _, Or.inl rfl⟩
  refine ⟨os, ?_, h2, h4, ?_⟩
  · simpa using h1
  · rw [removeOverlaps_eq_catDrop]
    simpa using h5

/-- Witness for C4 at a concrete document and configuration. -/
theorem split_text_recompose_witness :
    (0 : Int) < 4 ∧ (2 : Int) < 4 ∧
      ∃ os : List Nat,
        os.length + 1 = splitTextWitnessChunks.length ∧
        (∀ x ∈ os, x ≤ (2 : Int).toNat) ∧
        sharedOverlaps (2 : Int).toNat (splitTextWitnessChunks.map Document.content) os ∧
        removeOverlaps (splitTextWitnessChunks.map Document.content) os =
          "ab cd ef".toList :=
  ⟨by decide, by decide,
    split_text_recompose ⟨"ab cd ef".toList, []⟩ 2 4 ' ' splitTextWitnessChunks
      (by decide) (by decide) rfl⟩

/-! ### Vector store lemmas -/

theorem buildRecords_map_doc (embed : List Char → List Int) (i : Nat)
    (docs : List Document) :
    (buildRecords embed i docs).map EmbeddedRecord.doc = docs := by
  induction docs generalizing i with
  | nil => rfl
  | cons d ds ih => simp [buildRecords, ih]

theorem mem_buildRecords_id (embed : List Char → List Int) (i : Nat)
    (docs : List Document) :
    ∀ r ∈ buildRecords embed i docs, i ≤ r.id ∧ r.id < i + docs.length := by
  induction docs generalizing i with
  | nil => simp [buildRecords]
  | cons d ds ih =>
    intro r hr
    rcases List.mem_cons.mp hr with rfl | hr'
    · simp
    · have := ih (i + 1) r hr'
      simp only [List.length_cons]
      omega

theorem buildRecords_ids_nodup (embed : List Char → List Int) (i : Nat)
    (docs : List Document) :
    ((buildRecords embed i docs).map EmbeddedRecord.id).Nodup := by
  induction docs generalizing i with
  | nil => simp [buildRecords]
  | cons d ds ih =>
    simp only [buildRecords, List.map_cons, List.nodup_cons]
    refine ⟨?_, ih (i + 1)⟩
    intro hmem
    obtain ⟨r, hr, hrid⟩ := List.mem_map.mp hmem
    have := mem_buildRecords_id embed (i + 1) ds r hr
    omega

theorem insert_single_mem (embed : List Char → List Int) (st : VectorStore)
    (d : Document) (limit : Nat)
    (hd : d ∈ (fetchStored st limit).map stripId) :
    add_documents_to_vector_store embed st [d] false limit = st := by
  have hpd : decide (d ∉ (fetchStored st limit).map stripId) = false :=
    decide_eq_false (not_not_intro hd)
  have hfil : [d].filter (fun x => decide (x ∉ (fetchStored st limit).map stripId)) = [] := by
    simp only [List.filter_cons, List.filter_nil, hpd]
    rfl
  unfold add_documents_to_vector_store
  rw [if_neg (by simp : ¬ ([d] : List Document) = [])]
  show (if [d].filter (fun x => decide (x ∉ (fetchStored st limit).map stripId)) = []
      then st
      else addAll embed st
        ([d].filter fun x => decide (x ∉ (fetchStored st limit).map stripId))) = st
  rw [hfil]
  rw [if_pos rfl]

theorem insert_single_not_mem (embed : List Char → List Int) (st : VectorStore)
    (d : Document) (limit : Nat)
    (hd : d ∉ (fetchStored st limit).map stripId) :
    add_documents_to_vector_store embed st [d] false limit = addAll embed st [d] := by
  have hpd : decide (d ∉ (fetchStored st limit).map stripId) = true :=
    decide_eq_true hd
  have hfil : [d].filter (fun x => decide (x ∉ (fetchStored st limit).map stripId)) = [d] := by
    simp only [List.filter_cons, List.filter_nil, hpd]
    rfl
  unfold add_documents_to_vector_store
  rw [if_neg (by simp : ¬ ([d] : List Document) = [])]
  show (if [d].filter (fun x => decide (x ∉ (fetchStored st limit).map stripId)) = []
      then st
      else addAll embed st
        ([d].filter fun x => decide (x ∉ (fetchStored st limit).map stripId))) =
    addAll embed st [d]
  rw [hfil]
  rw [if_neg (by simp : ¬ ([d] : List Document) = [])]

/-! ### Claim theorems for the Vector Store -/

/-- C1 as amended: inserting the same (content, metadata) pair twice, with
duplicates disallowed and scan limits at least the store's current size,
makes the pair a member of the deduplication set the second call scans
(stored records with identifiers stripped), so the second call leaves the
store unchanged; and when the store did not already hold the pair, exactly
one stored record with that pair remains. -/
theorem dedup_insert_twice_single_record (embed : List Char → List Int)
    (st : VectorStore) (d : Document) (limit1 limit2 : Nat)
    (h1 : st.records.length ≤ limit1)
    (h2 : (add_documents_to_vector_store embed st [d] false limit1).records.length ≤ limit2) :
    d ∈ (fetchStored (add_documents_to_vector_store embed st [d] false limit1)
          limit2).map stripId ∧
    add_documents_to_vector_store embed
        (add_documents_to_vector_store embed st [d] false limit1) [d] false limit2 =
      add_documents_to_vector_store embed st [d] false limit1 ∧
    (st.records.countP (fun r => decide (stripId r = d)) = 0 →
      (add_documents_to_vector_store embed st [d] false limit1).records.countP
        (fun r => decide (stripId r = d)) = 1) := by
  have hfetch1 : fetchStored st limit1 = st.records := by
    unfold fetchStored
    exact List.take_of_length_le h1
  by_cases hmem : d ∈ st.records.map stripId
  · have hst1 : add_documents_to_vector_store embed st [d] false limit1 = st :=
      insert_single_mem embed st d limit1 (by rw [hfetch1]; exact hmem)
    rw [hst1] at h2 ⊢
    have hfetch2 : fetchStored st limit2 = st.records := by
      unfold fetchStored
      exact List.take_of_length_le h2
    have hmem2 : d ∈ (fetchStored st limit2).map stripId := by
      rw [hfetch2]; exact hmem
    refine ⟨hmem2, insert_single_mem embed st d limit2 hmem2, ?_⟩
    intro hcount
    exfalso
    rw [List.countP_eq_zero] at hcount
    obtain ⟨r, hr, hrd⟩ := List.mem_map.mp hmem
    exact hcount r hr (by simp [hrd])
  · have hst1 : add_documents_to_vector_store embed st [d] false limit1 =
        addAll embed st [d] :=
      insert_single_not_mem embed st d limit1 (by rw [hfetch1]; exact hmem)
    rw [hst1] at h2 ⊢
    have hrec : (addAll embed st [d]).records =
        st.records ++ [⟨st.nextId, d, embed d.content⟩] := rfl
    have hmem1 : d ∈ (addAll embed st [d]).records.map stripId := by
      rw [hrec]
      simp [stripId]
    have hfetch2 : fetchStored (addAll embed st [d]) limit2 =
        (addAll embed st [d]).records := by
      unfold fetchStored
      exact List.take_of_length_le h2
    have hmem2 : d ∈ (fetchStored (addAll embed st [d]) limit2).map stripId := by
      rw [hfetch2]; exact hmem1
    refine ⟨hmem2, insert_single_mem embed (addAll embed st [d]) d limit2 hmem2, ?_⟩
    intro hcount
    rw [hrec, List.countP_append, hcount]
    simp [stripId]

/-- Counterexample to C1 as universally stated: a store already holding two
records with the same (content, metadata) pair — reachable by earlier inserts
with `allow_duplicates=true` — still holds two records with that pair after
inserting it twice with duplicates disallowed and full-store scan limits, not
exactly one: both dedup inserts add nothing. -/
theorem dedup_insert_twice_single_record_counterexample :
    (add_documents_to_vector_store embedLen
        (add_documents_to_vector_store embedLen
          ⟨[⟨0, ⟨"hi".toList, []⟩, [2]⟩, ⟨1, ⟨"hi".toList, []⟩, [2]⟩], 2⟩
          [⟨"hi".toList, []⟩] false 2)
        [⟨"hi".toList, []⟩] false 2).records.countP
      (fun r => decide (stripId r = ⟨"hi".toList, []⟩)) ≠ 1 := by
  decide

/-- Witness for C1 at a concrete store and pair. -/
theorem dedup_insert_twice_single_record_witness :
    (VectorStore.records ⟨[], 0⟩).length ≤ 0 ∧
    (add_documents_to_vector_store embedLen ⟨[], 0⟩
        [⟨"hi".toList, [("page", Scalar.i 0)]⟩] false 0).records.length ≤ 1 ∧
    ((⟨"hi".toList, [("page", Scalar.i 0)]⟩ : Document) ∈
        (fetchStored (add_documents_to_vector_store embedLen ⟨[], 0⟩
          [⟨"hi".toList, [("page", Scalar.i 0)]⟩] false 0) 1).map stripId ∧
      add_documents_to_vector_store embedLen
          (add_documents_to_vector_store embedLen ⟨[], 0⟩
            [⟨"hi".toList, [("page", Scalar.i 0)]⟩] false 0)
          [⟨"hi".toList, [("page", Scalar.i 0)]⟩] false 1 =
        add_documents_to_vector_store embedLen ⟨[], 0⟩
          [⟨"hi".toList, [("page", Scalar.i 0)]⟩] false 0 ∧
      ((VectorStore.records ⟨[], 0⟩).countP
          (fun r => decide (stripId r = ⟨"hi".toList, [("page", Scalar.i 0)]⟩)) = 0 →
        (add_documents_to_vector_store embedLen ⟨[], 0⟩
            [⟨"hi".toList, [("page", Scalar.i 0)]⟩] false 0).records.countP
          (fun r => decide (stripId r = ⟨"hi".toList, [("page", Scalar.i 0)]⟩)) = 1)) :=
  ⟨by decide, by decide,
    dedup_insert_twice_single_record embedLen ⟨[], 0⟩
      ⟨"hi".toList, [("page", Scalar.i 0)]⟩ 0 1 (by decide) (by decide)⟩

/-- C5: with duplicates allowed, every chunk of the batch is appended
unconditionally, each stored record getting a fresh unique identifier: the
stored (content, metadata) pairs afterwards are the old ones followed by the
whole batch, and the stored identifiers remain pairwise distinct — so
inserting the same pair twice yields two records with distinct identifiers. -/
theorem insert_allow_duplicates_appends_all (embed : List Char → List Int)
    (st : VectorStore) (ingest_data : List Document) (limit : Nat)
    (hwf : ∀ r ∈ st.records, r.id < st.nextId)
    (hnodup : (st.records.map EmbeddedRecord.id).Nodup) :
    ((add_documents_to_vector_store embed st ingest_data true limit).records.map
        EmbeddedRecord.doc = st.records.map EmbeddedRecord.doc ++ ingest_data) ∧
    ((add_documents_to_vector_store embed st ingest_data true limit).records.map
        EmbeddedRecord.id).Nodup := by
  by_cases hnil : ingest_data = []
  · subst hnil
    simp [add_documents_to_vector_store, hnodup]
  · have hfil : ingest_data.filter (fun d => decide (d ∉ ([] : List Document))) =
        ingest_data := by
      simp
    have hres : add_documents_to_vector_store embed st ingest_data true limit =
        addAll embed st ingest_data := by
      simp [add_documents_to_vector_store, hfil, hnil]
    rw [hres]
    constructor
    · show (st.records ++ buildRecords embed st.nextId ingest_data).map
          EmbeddedRecord.doc = _
      rw [List.map_append, buildRecords_map_doc]
    · show ((st.records ++ buildRecords embed st.nextId ingest_data).map
          EmbeddedRecord.id).Nodup
      rw [List.map_append]
      refine List.Nodup.append hnodup (buildRecords_ids_nodup embed st.nextId ingest_data) ?_
      intro a ha hb
      obtain ⟨r, hr, hrid⟩ := List.mem_map.mp ha
      obtain ⟨r', hr', hrid'⟩ := List.mem_map.mp hb
      have h1 := hwf r hr
      have h2 := (mem_buildRecords_id embed st.nextId ingest_data r' hr').1
      omega

/-- Witness for C5: inserting the same pair twice with duplicates allowed. -/
theorem insert_allow_duplicates_appends_all_witness :
    (∀ r ∈ (VectorStore.records ⟨[], 0⟩), r.id < (VectorStore.nextId ⟨[], 0⟩)) ∧
    ((VectorStore.records ⟨[], 0⟩).map EmbeddedRecord.id).Nodup ∧
    (((add_documents_to_vector_store embedLen ⟨[], 0⟩
        [⟨"hi".toList, []⟩, ⟨"hi".toList, []⟩] true 0).records.map
          EmbeddedRecord.doc =
        (VectorStore.records ⟨[], 0⟩).map EmbeddedRecord.doc ++
          [⟨"hi".toList, []⟩, ⟨"hi".toList, []⟩]) ∧
      ((add_documents_to_vector_store embedLen ⟨[], 0⟩
          [⟨"hi".toList, []⟩, ⟨"hi".toList, []⟩] true 0).records.map
        EmbeddedRecord.id).Nodup) :=
  ⟨by simp, by simp,
    insert_allow_duplicates_appends_all embedLen ⟨[], 0⟩
      [⟨"hi".toList, []⟩, ⟨"hi".toList, []⟩] 0 (by simp) (by simp)⟩

/-- C10: with duplicates disallowed, a batch containing two structurally equal
documents, neither matching a scanned stored record, has both copies inserted:
each candidate is compared only against records stored before the call, never
against other candidates of the same batch. -/
theorem batch_not_deduped_within_call (embed : List Char → List Int)
    (st : VectorStore) (d : Document) (limit : Nat)
    (hd : d ∉ (fetchStored st limit).map stripId) :
    (add_documents_to_vector_store embed st [d, d] false limit).records.map
        stripId = st.records.map stripId ++ [d, d] := by
  have hpd : decide (d ∉ (fetchStored st limit).map stripId) = true :=
    decide_eq_true hd
  have hfil : [d, d].filter (fun x => decide (x ∉ (fetchStored st limit).map stripId)) =
      [d, d] := by
    simp only [List.filter_cons, List.filter_nil, hpd]
    rfl
  have hres : add_documents_to_vector_store embed st [d, d] false limit =
      addAll embed st [d, d] := by
    unfold add_documents_to_vector_store
    rw [if_neg (by simp : ¬ ([d, d] : List Document) = [])]
    show (if [d, d].filter (fun x => decide (x ∉ (fetchStored st limit).map stripId)) = []
        then st
        else addAll embed st
          ([d, d].filter fun x => decide (x ∉ (fetchStored st limit).map stripId))) =
      addAll embed st [d, d]
    rw [hfil]
    rw [if_neg (by simp : ¬ ([d, d] : List Document) = [])]
  rw [hres]
  show (st.records ++ buildRecords embed st.nextId [d, d]).map stripId = _
  rw [List.map_append]
  simp [buildRecords, stripId]

/-- Witness for C10 at a concrete non-empty store. -/
theorem batch_not_deduped_within_call_witness :
    ((⟨"y".toList, []⟩ : Document) ∉
        (fetchStored ⟨[⟨0, ⟨"x".toList, []⟩, [1]⟩], 1⟩ 1).map stripId) ∧
    (add_documents_to_vector_store embedLen ⟨[⟨0, ⟨"x".toList, []⟩, [1]⟩], 1⟩
        [⟨"y".toList, []⟩, ⟨"y".toList, []⟩] false 1).records.map stripId =
      (VectorStore.records ⟨[⟨0, ⟨"x".toList, []⟩, [1]⟩], 1⟩).map stripId ++
        [⟨"y".toList, []⟩, ⟨"y".toList, []⟩] :=
  ⟨by decide,
    batch_not_deduped_within_call embedLen ⟨[⟨0, ⟨"x".toList, []⟩, [1]⟩], 1⟩
      ⟨"y".toList, []⟩ 1 (by decide)⟩


/-! ### Search lemmas -/

theorem scoreFrom_fst_ge (qv : List Int) (i : Nat) (rs : List EmbeddedRecord) :
    ∀ x ∈ scoreFrom qv i rs, i ≤ x.1 := by
  induction rs generalizing i with
  | nil => simp [scoreFrom]
  | cons r rs ih =>
    intro x hx
    rcases List.mem_cons.mp hx with rfl | hx'
    · simp
    · have := ih (i + 1) x hx'
      omega

theorem scoreFrom_pairwise (qv : List Int) (i : Nat) (rs : List EmbeddedRecord) :
    (scoreFrom qv i rs).Pairwise (fun a b => a.1 < b.1) := by
  induction rs generalizing i with
  | nil => exact List.Pairwise.nil
  | cons r rs ih =>
    refine List.Pairwise.cons ?_ (ih (i + 1))
    intro y hy
    have := scoreFrom_fst_ge qv (i + 1) rs y hy
    simp only []
    omega

theorem insertRanked_perm (x : Nat × EmbeddedRecord × Int)
    (l : List (Nat × EmbeddedRecord × Int)) : (insertRanked x l).Perm (x :: l) := by
  induction l with
  | nil => exact List.Perm.refl _
  | cons y ys ih =>
    simp only [insertRanked]
    by_cases hle : x.2.2 ≤ y.2.2
    · rw [if_pos hle]
    · rw [if_neg hle]
      exact ((ih.cons y).trans (List.Perm.swap x y ys))

theorem insertRanked_pairwise (x : Nat × EmbeddedRecord × Int)
    (l : List (Nat × EmbeddedRecord × Int)) (hl : l.Pairwise rankedBefore)
    (hx : ∀ y ∈ l, x.1 < y.1) : (insertRanked x l).Pairwise rankedBefore := by
  induction l with
  | nil => simp [insertRanked, rankedBefore]
  | cons y ys ih =>
    rw [List.pairwise_cons] at hl
    obtain ⟨hy_all, hys⟩ := hl
    simp only [insertRanked]
    by_cases hle : x.2.2 ≤ y.2.2
    · rw [if_pos hle]
      refine List.Pairwise.cons ?_ (List.Pairwise.cons hy_all hys)
      intro z hz
      rcases List.mem_cons.mp hz with rfl | hz'
      · have hxz : x.1 < z.1 := hx z (List.mem_cons_self _ _)
        unfold rankedBefore
        omega
      · have hyz := hy_all z hz'
        have hxz : x.1 < z.1 := hx z (List.mem_cons_of_mem _ hz')
        unfold rankedBefore at hyz ⊢
        omega
    · rw [if_neg hle]
      refine List.Pairwise.cons ?_
        (ih hys fun z hz => hx z (List.mem_cons_of_mem _ hz))
      intro z hz
      have hz' : z = x ∨ z ∈ ys := by
        have := (insertRanked_perm x ys).mem_iff.mp hz
        simpa using this
      rcases hz' with rfl | hz'
      · unfold rankedBefore
        omega
      · exact hy_all z hz'

theorem rankAll_perm (l : List (Nat × EmbeddedRecord × Int)) : (rankAll l).Perm l := by
  induction l with
  | nil => exact List.Perm.refl _
  | cons x xs ih =>
    exact (insertRanked_perm x (rankAll xs)).trans (ih.cons x)

theorem rankAll_pairwise (l : List (Nat × EmbeddedRecord × Int))
    (h : l.Pairwise (fun a b => a.1 < b.1)) : (rankAll l).Pairwise rankedBefore := by
  induction l with
  | nil => exact List.Pairwise.nil
  | cons x xs ih =>
    rw [List.pairwise_cons] at h
    exact insertRanked_pairwise x (rankAll xs) (ih h.2)
      fun y hy => h.1 y ((rankAll_perm xs).mem_iff.mp hy)

/-! ### Claim theorems for search, retrieval, trimming and the prompt -/

/-- C6: `search(q, k)` returns at most `k` results, ordered by non-decreasing
distance to the query vector, with ties broken by earliest insertion order
(on the index-exposing view every adjacent pair is strictly ranked: smaller
distance, or equal distance and smaller insertion index), and re-running the
identical search against an unchanged store returns the identical ordering. -/
theorem search_at_most_k_sorted_stable (embed : List Char → List Int)
    (st : VectorStore) (q : List Char) (k : Nat) (_hk : 0 < k) :
    (search embed st q k).length ≤ k ∧
    (search embed st q k).Pairwise (fun a b => a.2 ≤ b.2) ∧
    (searchRanked embed st q k).Pairwise rankedBefore ∧
    search embed st q k = search embed st q k := by
  have hranked : (searchRanked embed st q k).Pairwise rankedBefore :=
    List.Pairwise.sublist (List.take_sublist k _)
      (rankAll_pairwise _ (scoreFrom_pairwise (embed q) 0 st.records))
  refine ⟨?_, ?_, hranked, rfl⟩
  · unfold search searchRanked
    simp [List.length_take]
  · unfold search
    refine List.Pairwise.map _ ?_ hranked
    intro a b hab
    unfold rankedBefore at hab
    show a.2.2 ≤ b.2.2
    omega

/-- Witness for C6 at a concrete store and query. -/
theorem search_at_most_k_sorted_stable_witness :
    0 < 2 ∧
    ((search embedLen ⟨[⟨0, ⟨"aa".toList, []⟩, [2]⟩, ⟨1, ⟨"b".toList, []⟩, [1]⟩,
          ⟨2, ⟨"cc".toList, []⟩, [2]⟩], 3⟩ "aa".toList 2).length ≤ 2 ∧
      (search embedLen ⟨[⟨0, ⟨"aa".toList, []⟩, [2]⟩, ⟨1, ⟨"b".toList, []⟩, [1]⟩,
          ⟨2, ⟨"cc".toList, []⟩, [2]⟩], 3⟩ "aa".toList 2).Pairwise
        (fun a b => a.2 ≤ b.2) ∧
      (searchRanked embedLen ⟨[⟨0, ⟨"aa".toList, []⟩, [2]⟩, ⟨1, ⟨"b".toList, []⟩, [1]⟩,
          ⟨2, ⟨"cc".toList, []⟩, [2]⟩], 3⟩ "aa".toList 2).Pairwise rankedBefore ∧
      search embedLen ⟨[⟨0, ⟨"aa".toList, []⟩, [2]⟩, ⟨1, ⟨"b".toList, []⟩, [1]⟩,
          ⟨2, ⟨"cc".toList, []⟩, [2]⟩], 3⟩ "aa".toList 2 =
        search embedLen ⟨[⟨0, ⟨"aa".toList, []⟩, [2]⟩, ⟨1, ⟨"b".toList, []⟩, [1]⟩,
          ⟨2, ⟨"cc".toList, []⟩, [2]⟩], 3⟩ "aa".toList 2) :=
  ⟨by decide,
    search_at_most_k_sorted_stable embedLen
      ⟨[⟨0, ⟨"aa".toList, []⟩, [2]⟩, ⟨1, ⟨"b".toList, []⟩, [1]⟩,
        ⟨2, ⟨"cc".toList, []⟩, [2]⟩], 3⟩ "aa".toList 2 (by decide)⟩

theorem joinNewline_eq_intercalate (ts : List (List Char)) :
    joinNewline ts = List.intercalate ['\n'] ts := by
  induction ts with
  | nil => rfl
  | cons t ts ih =>
    cases ts with
    | nil => simp [joinNewline, List.intercalate]
    | cons t2 rest =>
      show t ++ '\n' :: joinNewline (t2 :: rest) = _
      rw [ih]
      unfold List.intercalate
      rw [List.intersperse_cons_cons]
      simp

/-- C7: the Retriever's result is exactly the newline-separated join of the
content fields of the search results, in result order, and is the empty
string (not an error) when the search returns no results. -/
theorem retrieve_joins_results (embed : List Char → List Int) (st : VectorStore)
    (query : List Char) (k : Nat) :
    retrieve embed st query k =
      List.intercalate ['\n'] ((search embed st query k).map fun r => r.1.doc.content) ∧
    (search embed st query k = [] → retrieve embed st query k = []) := by
  constructor
  · unfold retrieve search_result_text
    exact joinNewline_eq_intercalate _
  · intro h
    unfold retrieve search_result_text
    rw [h]
    rfl

/-- Witness for C7 at a concrete empty store, where the search is empty. -/
theorem retrieve_joins_results_witness :
    (retrieve embedLen ⟨[], 0⟩ "q".toList 5 =
      List.intercalate ['\n'] ((search embedLen ⟨[], 0⟩ "q".toList 5).map
        fun r => r.1.doc.content) ∧
    (search embedLen ⟨[], 0⟩ "q".toList 5 = [] →
      retrieve embedLen ⟨[], 0⟩ "q".toList 5 = [])) ∧
    search embedLen ⟨[], 0⟩ "q".toList 5 = [] :=
  ⟨retrieve_joins_results embedLen ⟨[], 0⟩ "q".toList 5, by decide⟩

theorem trimMetadata_lookup (important_metadata : List String)
    (md : List (String × Scalar)) (k : String) :
    (trimMetadata important_metadata md).lookup k =
      if k ∈ important_metadata then md.lookup k else none := by
  induction important_metadata with
  | nil => simp [trimMetadata]
  | cons a allow ih =>
    have hstep : trimMetadata (a :: allow) md =
        (match md.lookup a with
         | some v => (a, v) :: trimMetadata allow md
         | none => trimMetadata allow md) := by
      cases hma : md.lookup a <;> simp [trimMetadata, List.filterMap_cons, hma]
    rw [hstep]
    cases hma : md.lookup a with
    | some v =>
      by_cases hk : k = a
      · subst hk
        simp [List.lookup_cons, hma]
      · have hbeq : (k == a) = false := by
          simp [hk]
        simp only [List.lookup_cons, hbeq]
        rw [ih]
        simp [hk]
    | none =>
      rw [ih]
      by_cases hk : k = a
      · subst hk
        by_cases hmem : k ∈ allow <;> simp [hmem, hma]
      · simp [hk]

/-- C8: every chunk derived from a source document carries exactly the
parent's metadata restricted to the allow-list (trimming applied before
chunking, so all chunks of one parent share the same trimmed metadata), and
the trimmed mapping keeps exactly the allow-listed keys with values copied
verbatim. -/
theorem chunks_carry_trimmed_metadata (important_metadata : List String)
    (pdf_data : List Document) (chunk_overlap chunk_size : Int) (separator : Char)
    (chunks : List Document)
    (hok : split_text (trimmed_pdf_data important_metadata pdf_data)
        chunk_overlap chunk_size separator = .ok chunks) :
    (∀ c ∈ chunks, ∃ d ∈ pdf_data,
      c.metadata = trimMetadata important_metadata d.metadata) ∧
    (∀ md : List (String × Scalar), ∀ k : String, k ∈ important_metadata →
      (trimMetadata important_metadata md).lookup k = md.lookup k) ∧
    (∀ md : List (String × Scalar), ∀ k : String, k ∉ important_metadata →
      (trimMetadata important_metadata md).lookup k = none) := by
  refine ⟨?_, ?_, ?_⟩
  · intro c hc
    by_cases hvalid : chunk_size ≤ 0 ∨ chunk_overlap ≥ chunk_size
    · unfold split_text at hok
      rw [if_pos hvalid] at hok
      cases hok
    · unfold split_text at hok
      rw [if_neg hvalid] at hok
      simp only [Except.ok.injEq] at hok
      subst hok
      rw [List.mem_flatMap] at hc
      obtain ⟨d', hd', hc⟩ := hc
      unfold trimmed_pdf_data at hd'
      obtain ⟨d, hd, rfl⟩ := List.mem_map.mp hd'
      rw [List.mem_map] at hc
      obtain ⟨cc, _, rfl⟩ := hc
      exact ⟨d, hd, rfl⟩
  · intro md k hk
    rw [trimMetadata_lookup, if_pos hk]
  · intro md k hk
    rw [trimMetadata_lookup, if_neg hk]

/-- Witness for C8 at a concrete document and allow-list. -/
theorem chunks_carry_trimmed_metadata_witness :
    split_text (trimmed_pdf_data ["page"]
        [⟨"ab cd".toList, [("page", Scalar.i 0), ("source", Scalar.s "tmp")]⟩]) 1 3 ' ' =
      .ok [⟨"ab ".toList, [("page", Scalar.i 0)]⟩,
           ⟨" cd".toList, [("page", Scalar.i 0)]⟩] ∧
    ((∀ c ∈ [(⟨"ab ".toList, [("page", Scalar.i 0)]⟩ : Document),
          ⟨" cd".toList, [("page", Scalar.i 0)]⟩],
        ∃ d ∈ [(⟨"ab cd".toList,
            [("page", Scalar.i 0), ("source", Scalar.s "tmp")]⟩ : Document)],
          c.metadata = trimMetadata ["page"] d.metadata) ∧
      (∀ md : List (String × Scalar), ∀ k : String, k ∈ ["page"] →
        (trimMetadata ["page"] md).lookup k = md.lookup k) ∧
      (∀ md : List (String × Scalar), ∀ k : String, k ∉ ["page"] →
        (trimMetadata ["page"] md).lookup k = none)) :=
  ⟨rfl,
    chunks_carry_trimmed_metadata ["page"]
      [⟨"ab cd".toList, [("page", Scalar.i 0), ("source", Scalar.s "tmp")]⟩] 1 3 ' '
      [⟨"ab ".toList, [("page", Scalar.i 0)]⟩, ⟨" cd".toList, [("page", Scalar.i 0)]⟩]
      rfl⟩

/-- C9: the Answer Synthesizer builds exactly the prompt
`"Context: {context} \nQuestion: {query}"` — the context after `"Context: "`,
then a space, a newline, and `"Question: "` followed by the query — submits it
in a single call to the external model, and returns its response verbatim. -/
theorem answer_prompt_template (complete : List Char → List Char)
    (context query : List Char) :
    answer complete context query =
      complete ("Context: ".toList ++ context ++
        ' ' :: '\n' :: ("Question: ".toList ++ query)) := by
  unfold answer instructions
  congr 1
  simp [List.append_assoc]

end RagPDF
